import Mathlib

/-!
Verification of the weight-redistribution engine of `src/RMCW2.py`.

The repository is a Dash dashboard whose algorithmic core is the function
`adjust_weights(current_weights, index, new_value)` (lines 79-121) together
with the combined-score computation inside `update_sunburst` (lines 235-241).
Python floats are embedded as exact rationals (`ℚ`); the tolerance constant
`1e-6` of the source becomes the rational `tol`.  Fallible behaviour is made
explicit with `Option`: reading `current_weights[index]` out of range raises
`IndexError` in Python (modelled as `none`), and the normalization step
`w / total` raises `ZeroDivisionError` when `total == 0` (also `none`).
-/

/-- The absolute tolerance `1e-6` used by the early-exit test of the
redistribution loop (line 113) and by the normalization trigger (line 118). -/
def tol : ℚ := 1 / 1000000

/-- The redistribution loop of `adjust_weights` (lines 103-114): walk the
weights strictly after the adjusted index in ascending order, subtracting
(`direction = -1`) or adding (`direction = 1`) as much of the remaining delta
as each position can absorb, stopping once the remainder drops to `tol`.
The argument list is the slice `weights[index+1:]`; positions the loop never
reaches are returned unchanged. -/
def redistribute (direction : Int) : ℚ → List ℚ → List ℚ
  | _, [] => []
  | remaining, w :: rest =>
    let available := if direction = -1 then w else 1 - w
    let adjustment := min remaining available
    let w2 := if direction = -1 then w - adjustment else w + adjustment
    let remaining2 := remaining - adjustment
    if remaining2 ≤ tol then w2 :: rest
    else w2 :: redistribute direction remaining2 rest

/-- The state of the weight list after line 114 of `adjust_weights`, before
the final normalization: position `index` is set to `new_value` (line 94) and,
when the delta is nonzero, the suffix after `index` is rewritten by the
redistribution loop.  When the delta is zero the list is returned as set
(the `delta == 0` short-circuit of line 96 returns before the loop). -/
def prenorm_weights (current_weights : List ℚ) (index : ℕ) (new_value : ℚ) : List ℚ :=
  let weights := current_weights.set index new_value
  let delta := new_value - current_weights.getD index 0
  if delta = 0 then weights
  else
    let direction : Int := if delta > 0 then -1 else 1
    weights.take (index + 1) ++ redistribute direction |delta| (weights.drop (index + 1))

/-- Embedding of `adjust_weights` (lines 79-121).  `none` models the two
Python exceptions: `IndexError` when `index` is out of range of the input
list (line 93 reads `weights[index]` before anything else), and
`ZeroDivisionError` when the normalization of line 119 divides by a zero
total.  Otherwise the returned list is the pre-normalization vector, rescaled
by its total exactly when `|total - 1| > 1e-6` (lines 116-121). -/
def adjust_weights (current_weights : List ℚ) (index : ℕ) (new_value : ℚ) :
    Option (List ℚ) :=
  if index < current_weights.length then
    let delta := new_value - current_weights.getD index 0
    let weights := prenorm_weights current_weights index new_value
    if delta = 0 then some weights
    else
      let total := weights.sum
      if |total - 1| > tol then
        if total = 0 then none
        else some (weights.map (fun w => w / total))
      else some weights
  else none

/-- One aggregated demographic record: the four composite sub-scores held by
a row of `agg_df` (columns built in `load_and_preprocess_data`, lines 61-76). -/
structure GroupRow where
  climate : ℚ
  land : ℚ
  water : ℚ
  chemical : ℚ

/-- The combined-score computation of `update_sunburst` (lines 236-241):
`impact_score = Climate*w0 + Land*w1 + Water*w2 + Chemical*w3`. -/
def impact_score (row : GroupRow) (weights : List ℚ) : ℚ :=
  row.climate * weights.getD 0 0 +
  row.land * weights.getD 1 0 +
  row.water * weights.getD 2 0 +
  row.chemical * weights.getD 3 0

/-- A store of Python list objects: addresses to list contents.  Used to state
the aliasing discipline of `adjust_weights`, whose first statement (line 92)
copies the caller's list and whose writes all target the copy. -/
def Heap : Type := ℕ → List ℚ

/-- Writing a list value at an address of the store. -/
def hupdate (h : Heap) (a : ℕ) (v : List ℚ) : Heap :=
  fun x => if x = a then v else h x

/-- Store-level view of `adjust_weights`: `caller` is the address of the
argument list, `fresh` the address allocated for `current_weights.copy()`
(line 92) and `fresh2` the address allocated by the normalization list
comprehension (line 119).  Consecutive writes to the same list object are
collapsed to a single write of their net contents; the result is the final
store paired with the address of the returned list (`none` on the
`IndexError` and `ZeroDivisionError` paths, which return no list). -/
def adjust_weights_heap (h : Heap) (caller fresh fresh2 : ℕ) (index : ℕ)
    (new_value : ℚ) : Heap × Option ℕ :=
  let l := h caller
  let h1 := hupdate h fresh l
  if index < l.length then
    let delta := new_value - l.getD index 0
    let h2 := hupdate h1 fresh (prenorm_weights l index new_value)
    if delta = 0 then (h2, some fresh)
    else
      let total := (prenorm_weights l index new_value).sum
      if |total - 1| > tol then
        if total = 0 then (h2, none)
        else (hupdate h2 fresh2 ((prenorm_weights l index new_value).map
          (fun w => w / total)), some fresh2)
      else (h2, some fresh)
  else (h1, none)

/-- Every weight the redistribution loop touches stays in `[0, 1]`: a step
subtracts at most the weight itself (`available = weights[i]`) or adds at most
its headroom (`available = 1 - weights[i]`), and the remaining delta never
goes negative because each adjustment is capped by it. -/
theorem redistribute_mem_bounds (direction : Int) (remaining : ℚ) (ws : List ℚ)
    (hr : 0 ≤ remaining) (hws : ∀ x ∈ ws, 0 ≤ x ∧ x ≤ 1) :
    ∀ x ∈ redistribute direction remaining ws, 0 ≤ x ∧ x ≤ 1 := by
  induction ws generalizing remaining with
  | nil => intro x hx; simp [redistribute] at hx
  | cons w rest ih =>
    intro x hx
    obtain ⟨hw0, hw1⟩ := hws w (List.mem_cons_self w rest)
    have hrest : ∀ y ∈ rest, 0 ≤ y ∧ y ≤ 1 := fun y hy =>
      hws y (List.mem_cons_of_mem w hy)
    by_cases hd : direction = -1
    · subst hd
      simp only [redistribute, reduceIte] at hx
      have hm1 : min remaining w ≤ w := min_le_right _ _
      have hm2 : min remaining w ≤ remaining := min_le_left _ _
      have hm0 : 0 ≤ min remaining w := le_min hr hw0
      have hw2 : 0 ≤ w - min remaining w ∧ w - min remaining w ≤ 1 :=
        ⟨by linarith, by linarith⟩
      split at hx
      · rcases List.mem_cons.mp hx with h | h
        · exact h ▸ hw2
        · exact hrest x h
      · rcases List.mem_cons.mp hx with h | h
        · exact h ▸ hw2
        · exact ih _ (by linarith) hrest x h
    · simp only [redistribute, if_neg hd] at hx
      have hm1 : min remaining (1 - w) ≤ 1 - w := min_le_right _ _
      have hm2 : min remaining (1 - w) ≤ remaining := min_le_left _ _
      have hm0 : 0 ≤ min remaining (1 - w) := le_min hr (by linarith)
      have hw2 : 0 ≤ w + min remaining (1 - w) ∧ w + min remaining (1 - w) ≤ 1 :=
        ⟨by linarith, by linarith⟩
      split at hx
      · rcases List.mem_cons.mp hx with h | h
        · exact h ▸ hw2
        · exact hrest x h
      · rcases List.mem_cons.mp hx with h | h
        · exact h ▸ hw2
        · exact ih _ (by linarith) hrest x h

/-- The pre-normalization vector keeps every element in `[0, 1]` when the
input does and the new value does: the written position holds `new_value`
and the loop preserves the bounds of the rest. -/
theorem prenorm_mem_bounds (w : List ℚ) (i : ℕ) (nv : ℚ)
    (hw : ∀ x ∈ w, 0 ≤ x ∧ x ≤ 1) (hnv0 : 0 ≤ nv) (hnv1 : nv ≤ 1) :
    ∀ x ∈ prenorm_weights w i nv, 0 ≤ x ∧ x ≤ 1 := by
  have hset : ∀ x ∈ w.set i nv, 0 ≤ x ∧ x ≤ 1 := by
    intro x hx
    rcases List.mem_or_eq_of_mem_set hx with h | h
    · exact hw x h
    · exact h ▸ ⟨hnv0, hnv1⟩
  intro x hx
  simp only [prenorm_weights] at hx
  split at hx
  · exact hset x hx
  · rcases List.mem_append.mp hx with h | h
    · exact hset x (List.mem_of_mem_take h)
    · exact redistribute_mem_bounds _ _ _ (abs_nonneg _)
        (fun y hy => hset y (List.mem_of_mem_drop hy)) x h

/-- Dividing every element of a list rescales its sum. -/
theorem sum_map_div (l : List ℚ) (t : ℚ) :
    (l.map (fun x => x / t)).sum = l.sum / t := by
  induction l with
  | nil => simp
  | cons a l ih => simp [ih, add_div]

/-- Writing a position of a list with its own value is the identity. -/
theorem set_getD_self (l : List ℚ) (i : ℕ) (h : i < l.length) :
    l.set i (l.getD i 0) = l := by
  induction l generalizing i with
  | nil => simp at h
  | cons a l ih =>
    cases i with
    | zero => simp
    | succ n =>
      have hn : n < l.length := by simpa using h
      rw [List.getD_cons_succ, List.set_cons_succ, ih n hn]

/-- Positions strictly before the adjusted index are untouched by the write
of `new_value` and by the redistribution loop, which only rewrites the slice
after the index. -/
theorem prenorm_getD_of_lt (w : List ℚ) (i : ℕ) (nv : ℚ) (j : ℕ)
    (hj : j < i) (hi : i < w.length) :
    (prenorm_weights w i nv).getD j 0 = w.getD j 0 := by
  have hne : i ≠ j := Nat.ne_of_gt hj
  have hset : (w.set i nv)[j]? = w[j]? := List.getElem?_set_ne hne
  have hjlen : j < ((w.set i nv).take (i + 1)).length := by
    simp only [List.length_take, List.length_set]
    omega
  simp only [prenorm_weights]
  split
  · rw [List.getD_eq_getElem?_getD, hset, ← List.getD_eq_getElem?_getD]
  · rw [List.getD_eq_getElem?_getD, List.getElem?_append_left hjlen,
      List.getElem?_take_of_lt (by omega), hset, ← List.getD_eq_getElem?_getD]

/-- C1 counterexample: the claim quantifies over every finite `newValue`, but
at `adjust([0.25, 0.25, 0.25, 0.25], 0, -1)` — an input meeting every stated
precondition, with a finite new value — the code returns `[-1, 1, 3/4, 1/4]`
(the deficit saturates position 1 at its upper bound 1 and the total is
already exactly 1, so normalization never runs), and the element `-1` lies far
outside `[-1e-6, 1 + 1e-6]`. -/
theorem c1_counterexample :
    (([1/4, 1/4, 1/4, 1/4] : List ℚ).length = 4 ∧
      (∀ x ∈ ([1/4, 1/4, 1/4, 1/4] : List ℚ), 0 ≤ x ∧ x ≤ 1) ∧
      |([1/4, 1/4, 1/4, 1/4] : List ℚ).sum - 1| ≤ tol ∧ (0 : ℕ) < 4) ∧
    adjust_weights [1/4, 1/4, 1/4, 1/4] 0 (-1) = some [-1, 1, 3/4, 1/4] ∧
    (-1 : ℚ) ∈ ([-1, 1, 3/4, 1/4] : List ℚ) ∧ ¬(-tol ≤ (-1 : ℚ)) := by
  refine ⟨⟨rfl, by norm_num, by norm_num [tol], by norm_num⟩, ?_, by norm_num,
    by norm_num [tol]⟩
  norm_num [adjust_weights, prenorm_weights, redistribute, tol, abs]

/-- C1 (amended): for every input weight vector satisfying the preconditions
(4 elements, each in `[0, 1]`, summing to 1 within `1e-6`), every index in
`[0, 4)` and every `newValue` in `[0, 1]`, whenever `adjust` returns a vector
its elements sum to 1 within `1e-6` and each element lies in
`[-1e-6, 1 + 1e-6]`. -/
theorem c1_theorem (w : List ℚ) (i : ℕ) (nv : ℚ)
    (hlen : w.length = 4)
    (hmem : ∀ x ∈ w, 0 ≤ x ∧ x ≤ 1)
    (hsum : |w.sum - 1| ≤ tol)
    (hi : i < 4) (hnv0 : 0 ≤ nv) (hnv1 : nv ≤ 1)
    (r : List ℚ) (hr : adjust_weights w i nv = some r) :
    |r.sum - 1| ≤ tol ∧ ∀ x ∈ r, -tol ≤ x ∧ x ≤ 1 + tol := by
  have hiw : i < w.length := by omega
  have htolpos : (0:ℚ) < tol := by norm_num [tol]
  have hpre : ∀ x ∈ prenorm_weights w i nv, 0 ≤ x ∧ x ≤ 1 :=
    prenorm_mem_bounds w i nv hmem hnv0 hnv1
  simp only [adjust_weights, if_pos hiw] at hr
  by_cases hdelta : nv - w.getD i 0 = 0
  · rw [if_pos hdelta] at hr
    have hnveq : nv = w.getD i 0 := by linarith [sub_eq_zero.mp hdelta]
    have hpeq : prenorm_weights w i nv = w := by
      simp only [prenorm_weights, if_pos hdelta]
      rw [hnveq, set_getD_self w i hiw]
    rw [hpeq] at hr
    obtain rfl : w = r := Option.some.inj hr
    exact ⟨hsum, fun x hx =>
      ⟨by linarith [(hmem x hx).1], by linarith [(hmem x hx).2]⟩⟩
  · rw [if_neg hdelta] at hr
    by_cases htot : |(prenorm_weights w i nv).sum - 1| > tol
    · rw [if_pos htot] at hr
      by_cases hz : (prenorm_weights w i nv).sum = 0
      · rw [if_pos hz] at hr
        exact absurd hr (by simp)
      · rw [if_neg hz] at hr
        have hrr : (prenorm_weights w i nv).map
            (fun x => x / (prenorm_weights w i nv).sum) = r := Option.some.inj hr
        have hsum0 : 0 ≤ (prenorm_weights w i nv).sum :=
          List.sum_nonneg (fun x hx => (hpre x hx).1)
        have hpos : 0 < (prenorm_weights w i nv).sum := lt_of_le_of_ne hsum0 (Ne.symm hz)
        subst hrr
        constructor
        · rw [sum_map_div, div_self hz]
          norm_num [tol]
        · intro x hx
          obtain ⟨y, hy, rfl⟩ := List.mem_map.mp hx
          have h1 : 0 ≤ y / (prenorm_weights w i nv).sum :=
            div_nonneg (hpre y hy).1 hsum0
          have h2 : y ≤ (prenorm_weights w i nv).sum :=
            List.single_le_sum (fun z hz2 => (hpre z hz2).1) y hy
          have h3 : y / (prenorm_weights w i nv).sum ≤ 1 := (div_le_one hpos).mpr h2
          exact ⟨by linarith, by linarith⟩
    · rw [if_neg htot] at hr
      have hrr : prenorm_weights w i nv = r := Option.some.inj hr
      subst hrr
      push_neg at htot
      exact ⟨htot, fun x hx =>
        ⟨by linarith [(hpre x hx).1], by linarith [(hpre x hx).2]⟩⟩

/-- C1 witness: the amended invariant instantiated at
`adjust([0.25, 0.25, 0.25, 0.25], 0, 0.5) = [0.5, 0, 0.25, 0.25]`. -/
theorem c1_witness :
    adjust_weights [1/4, 1/4, 1/4, 1/4] 0 (1/2) = some [1/2, 0, 1/4, 1/4] ∧
    (|([1/2, 0, 1/4, 1/4] : List ℚ).sum - 1| ≤ tol ∧
      ∀ x ∈ ([1/2, 0, 1/4, 1/4] : List ℚ), -tol ≤ x ∧ x ≤ 1 + tol) := by
  have h : adjust_weights [1/4, 1/4, 1/4, 1/4] 0 (1/2) = some [1/2, 0, 1/4, 1/4] := by
    norm_num [adjust_weights, prenorm_weights, redistribute, tol, abs]
  exact ⟨h, c1_theorem [1/4, 1/4, 1/4, 1/4] 0 (1/2) rfl (by norm_num)
    (by norm_num [tol]) (by norm_num) (by norm_num) (by norm_num) [1/2, 0, 1/4, 1/4] h⟩

/-- C2 counterexample: at `adjust([0.25, 0.25, 0.25, 0.25], 0, 0.55)` the code
returns `[0.55, 0, 0.2, 0.25]`, not the claimed `[0.55, 0, 0, 0.2]` (whose
elements would not even sum to 1): the +0.30 surplus is fully absorbed by
index 1 (0.25) and index 2 (0.05), so index 3 is never touched. -/
theorem c2_counterexample :
    adjust_weights [1/4, 1/4, 1/4, 1/4] 0 (11/20) = some [11/20, 0, 1/5, 1/4] ∧
    some ([11/20, 0, 1/5, 1/4] : List ℚ) ≠ some [11/20, 0, 0, 1/5] := by
  constructor
  · norm_num [adjust_weights, prenorm_weights, redistribute, tol, abs]
  · norm_num

/-- C2 (amended): `adjust([0.25, 0.25, 0.25, 0.25], 0, 0.55)` redistributes
the +0.30 surplus by subtracting from index 1 first (down to 0) and then
index 2 (down to 0.20), which fully absorbs the surplus so index 3 keeps its
0.25, returning exactly `[0.55, 0, 0.2, 0.25]`; the final normalization is a
no-op since the pre-normalization vector already sums to 1. -/
theorem c2_theorem :
    adjust_weights [1/4, 1/4, 1/4, 1/4] 0 (11/20) = some [11/20, 0, 1/5, 1/4] ∧
    prenorm_weights [1/4, 1/4, 1/4, 1/4] 0 (11/20) = [11/20, 0, 1/5, 1/4] ∧
    ([11/20, 0, 1/5, 1/4] : List ℚ).sum = 1 := by
  refine ⟨?_, ?_, by norm_num⟩
  · norm_num [adjust_weights, prenorm_weights, redistribute, tol, abs]
  · norm_num [prenorm_weights, redistribute, tol, abs]

/-- C3: `adjust([0.1, 0, 0, 0.9], 0, 0.5)` returns `[0.5, 0, 0, 0.5]`: the
+0.4 surplus finds nothing to subtract at the saturated indices 1 and 2 and
is absorbed entirely by index 3. -/
theorem c3_theorem :
    adjust_weights [1/10, 0, 0, 9/10] 0 (1/2) = some [1/2, 0, 0, 1/2] := by
  norm_num [adjust_weights, prenorm_weights, redistribute, tol, abs]

/-- C4: `adjust([0.25, 0.25, 0.25, 0.25], 3, 0.85)` has no indices after 3 to
redistribute to, leaves a pre-normalization vector `[0.25, 0.25, 0.25, 0.85]`
of total 1.6, and the normalization divides every element by 1.6, returning
`[5/32, 5/32, 5/32, 17/32]` = `[0.15625, 0.15625, 0.15625, 0.53125]`; the
element at index 3 differs from the requested 0.85. -/
theorem c4_theorem :
    adjust_weights [1/4, 1/4, 1/4, 1/4] 3 (17/20) = some [5/32, 5/32, 5/32, 17/32] ∧
    prenorm_weights [1/4, 1/4, 1/4, 1/4] 3 (17/20) = [1/4, 1/4, 1/4, 17/20] ∧
    ([1/4, 1/4, 1/4, 17/20] : List ℚ).sum = 8/5 ∧
    (5 : ℚ)/32 = (1/4) / (8/5) ∧ (17 : ℚ)/32 = (17/20) / (8/5) ∧
    (17 : ℚ)/32 ≠ 17/20 := by
  refine ⟨?_, ?_, by norm_num, by norm_num, by norm_num, by norm_num⟩
  · norm_num [adjust_weights, prenorm_weights, redistribute, tol, abs]
  · norm_num [prenorm_weights, redistribute, tol, abs]

/-- C5: for every weight vector satisfying the preconditions and every index
in `[0, 4)`, setting a weight to its current value is the identity: the delta
is exactly zero and `adjust` returns the (copied) input unchanged via the
`delta == 0` short-circuit, before redistribution and normalization. -/
theorem c5_theorem (w : List ℚ) (i : ℕ)
    (hlen : w.length = 4)
    (hmem : ∀ x ∈ w, 0 ≤ x ∧ x ≤ 1)
    (hsum : |w.sum - 1| ≤ tol)
    (hi : i < 4) :
    adjust_weights w i (w.getD i 0) = some w := by
  have hiw : i < w.length := by omega
  have hdelta : w.getD i 0 - w.getD i 0 = 0 := sub_self _
  have hpeq : prenorm_weights w i (w.getD i 0) = w := by
    simp only [prenorm_weights, if_pos hdelta]
    exact set_getD_self w i hiw
  simp only [adjust_weights, if_pos hiw, if_pos hdelta, hpeq]

/-- C5 witness: idempotence at `adjust([0.25, 0.25, 0.25, 0.25], 2, 0.25)`. -/
theorem c5_witness :
    adjust_weights [1/4, 1/4, 1/4, 1/4] 2 (([1/4, 1/4, 1/4, 1/4] : List ℚ).getD 2 0) =
      some [1/4, 1/4, 1/4, 1/4] :=
  c5_theorem [1/4, 1/4, 1/4, 1/4] 2 rfl (by norm_num) (by norm_num [tol]) (by norm_num)

/-- C6: `adjust` is not total on the spec's precondition domain: the input
`weights = [0, 0, 0, 1]`, `index = 3`, `newValue = 0` satisfies every stated
precondition (4 non-negative elements summing to 1, index in `[0, 4)`,
finite `newValue` in `[0, 1]`), yet the post-redistribution vector is
`[0, 0, 0, 0]` with total 0, and the normalization step divides by that zero
total (a `ZeroDivisionError` in the source, modelled as `none`). -/
theorem c6_theorem :
    (([0, 0, 0, 1] : List ℚ).length = 4 ∧
      (∀ x ∈ ([0, 0, 0, 1] : List ℚ), 0 ≤ x ∧ x ≤ 1) ∧
      ([0, 0, 0, 1] : List ℚ).sum = 1 ∧ (3 : ℕ) < 4 ∧
      (0 : ℚ) ≤ 0 ∧ (0 : ℚ) ≤ 1) ∧
    prenorm_weights [0, 0, 0, 1] 3 0 = [0, 0, 0, 0] ∧
    ([0, 0, 0, 0] : List ℚ).sum = 0 ∧
    adjust_weights [0, 0, 0, 1] 3 0 = none := by
  refine ⟨⟨rfl, by norm_num, by norm_num, by norm_num, le_refl 0, by norm_num⟩,
    ?_, by norm_num, ?_⟩
  · norm_num [prenorm_weights, redistribute, tol, abs]
  · norm_num [adjust_weights, prenorm_weights, redistribute, tol, abs]

/-- C7 counterexample: the claim says no well-formed vector is ever returned
when the input length is not 4, but `adjust([0.2, 0.2, 0.2, 0.2, 0.2], 0, 0.4)`
on a 5-element vector raises no error and returns `[0.4, 0, 0.2, 0.2, 0.2]`,
a vector with non-negative elements summing to exactly 1: the source never
validates the length (the loop bound is `len(weights)` itself). -/
theorem c7_counterexample :
    ([1/5, 1/5, 1/5, 1/5, 1/5] : List ℚ).length ≠ 4 ∧
    adjust_weights [1/5, 1/5, 1/5, 1/5, 1/5] 0 (2/5) =
      some [2/5, 0, 1/5, 1/5, 1/5] ∧
    ([2/5, 0, 1/5, 1/5, 1/5] : List ℚ).sum = 1 ∧
    (∀ x ∈ ([2/5, 0, 1/5, 1/5, 1/5] : List ℚ), 0 ≤ x ∧ x ≤ 1) := by
  refine ⟨by norm_num, ?_, by norm_num, by norm_num⟩
  norm_num [adjust_weights, prenorm_weights, redistribute, tol, abs]

/-- C7 (amended): `adjust` performs no input validation; the only fail-fast
behaviour is the `IndexError` raised by reading `weights[index]` when the
index is out of range of the given vector, in which case no vector is
returned.  Vectors of length other than 4 are processed normally and
`newValue` is never checked. -/
theorem c7_theorem (w : List ℚ) (i : ℕ) (nv : ℚ) (h : w.length ≤ i) :
    adjust_weights w i nv = none := by
  simp only [adjust_weights, if_neg (Nat.not_lt.mpr h)]

/-- C7 witness: index 4 is out of range of a 4-element vector, so no vector
is returned. -/
theorem c7_witness :
    ([1/4, 1/4, 1/4, 1/4] : List ℚ).length ≤ 4 ∧
    adjust_weights [1/4, 1/4, 1/4, 1/4] 4 (1/2) = none :=
  ⟨by norm_num, c7_theorem [1/4, 1/4, 1/4, 1/4] 4 (1/2) (by norm_num)⟩

/-- C8: the combined score is the dot product of the row's four sub-scores
with the weight vector, and at sub-scores `(1, 2, 3, 4)` with uniform weights
`[0.25, 0.25, 0.25, 0.25]` it equals 2.5. -/
theorem c8_theorem :
    (∀ (row : GroupRow) (a b c d : ℚ),
      impact_score row [a, b, c, d] =
        row.climate * a + row.land * b + row.water * c + row.chemical * d) ∧
    impact_score ⟨1, 2, 3, 4⟩ [1/4, 1/4, 1/4, 1/4] = 5/2 := by
  constructor
  · intro row a b c d
    rfl
  · norm_num [impact_score]

/-- C9: redistribution never touches positions strictly before the adjusted
index: for every valid input whose pre-normalization total is within `1e-6`
of 1 (so the final normalization does not trigger and the returned vector is
the pre-normalization one), every output element at a position `j < index`
equals the corresponding input element. -/
theorem c9_theorem (w : List ℚ) (i : ℕ) (nv : ℚ) (j : ℕ)
    (hlen : w.length = 4)
    (hmem : ∀ x ∈ w, 0 ≤ x ∧ x ≤ 1)
    (hsum : |w.sum - 1| ≤ tol)
    (hi : i < 4)
    (htot : |(prenorm_weights w i nv).sum - 1| ≤ tol)
    (hj : j < i) :
    adjust_weights w i nv = some (prenorm_weights w i nv) ∧
    (prenorm_weights w i nv).getD j 0 = w.getD j 0 := by
  have hiw : i < w.length := by omega
  constructor
  · simp only [adjust_weights, if_pos hiw]
    by_cases hdelta : nv - w.getD i 0 = 0
    · rw [if_pos hdelta]
    · rw [if_neg hdelta, if_neg (not_lt.mpr htot)]
  · exact prenorm_getD_of_lt w i nv j hj hiw

/-- C9 witness: `adjust([0.25, 0.25, 0.25, 0.25], 1, 0.5)` leaves position 0
at 0.25, the surplus being absorbed after index 1. -/
theorem c9_witness :
    |(prenorm_weights [1/4, 1/4, 1/4, 1/4] 1 (1/2)).sum - 1| ≤ tol ∧
    (adjust_weights [1/4, 1/4, 1/4, 1/4] 1 (1/2) =
        some (prenorm_weights [1/4, 1/4, 1/4, 1/4] 1 (1/2)) ∧
      (prenorm_weights [1/4, 1/4, 1/4, 1/4] 1 (1/2)).getD 0 0 =
        ([1/4, 1/4, 1/4, 1/4] : List ℚ).getD 0 0) := by
  have htot : |(prenorm_weights [1/4, 1/4, 1/4, 1/4] 1 (1/2)).sum - 1| ≤ tol := by
    norm_num [prenorm_weights, redistribute, tol, abs]
  exact ⟨htot, c9_theorem [1/4, 1/4, 1/4, 1/4] 1 (1/2) 0 rfl (by norm_num)
    (by norm_num [tol]) (by norm_num) htot (by norm_num)⟩

/-- C10: `adjust_weights` never mutates the caller's list.  In the store
model, for any addresses with the two allocations distinct from the caller's
list (as Python's `copy()` and the list comprehension guarantee), the store
after the call holds the caller's original contents unchanged at its address,
and the address returned is never the caller's: the result is a fresh list. -/
theorem c10_theorem (h : Heap) (caller fresh fresh2 : ℕ) (i : ℕ) (nv : ℚ)
    (hf : caller ≠ fresh) (hf2 : caller ≠ fresh2) :
    (adjust_weights_heap h caller fresh fresh2 i nv).1 caller = h caller ∧
    (adjust_weights_heap h caller fresh fresh2 i nv).2 ≠ some caller := by
  have e1 : ∀ (g : Heap) (v : List ℚ), hupdate g fresh v caller = g caller :=
    fun g v => if_neg hf
  have e2 : ∀ (g : Heap) (v : List ℚ), hupdate g fresh2 v caller = g caller :=
    fun g v => if_neg hf2
  simp only [adjust_weights_heap]
  split_ifs <;> simp [e1, e2, Ne.symm hf, Ne.symm hf2]

/-- C10 witness: a store holding the uniform vector everywhere, caller at
address 0, allocations at 1 and 2. -/
theorem c10_witness :
    (0 : ℕ) ≠ 1 ∧ (0 : ℕ) ≠ 2 ∧
    ((adjust_weights_heap (fun _ => [1/4, 1/4, 1/4, 1/4]) 0 1 2 0 (1/2)).1 0 =
        (fun _ : ℕ => ([1/4, 1/4, 1/4, 1/4] : List ℚ)) 0 ∧
      (adjust_weights_heap (fun _ => [1/4, 1/4, 1/4, 1/4]) 0 1 2 0 (1/2)).2 ≠
        some 0) :=
  ⟨by norm_num, by norm_num,
    c10_theorem (fun _ => [1/4, 1/4, 1/4, 1/4]) 0 1 2 0 (1/2)
      (by norm_num) (by norm_num)⟩
